import Mathlib

/-!
Verification of the MSRF regime-switching classifier
(`src/python/export_model.py`, class `MSRF_Classifier`).

The source performs all probability arithmetic on IEEE doubles in the log
domain via `scipy.special.logsumexp`.  The embedding below uses exact
rational arithmetic and represents every log-domain quantity by its
exponential: under exact arithmetic `logsumexp`-recursions on logs are
equivalent to sum/product recursions on the underlying (positive) values,
so `log_alpha` is represented by `fbAlpha`, `log_beta` by `fbBeta`,
additions of logs by products, `logsumexp` by a plain sum, and the
accumulated `total_log_likelihood` by the product `fbLik` of the per-chain
likelihoods.  Claims stated in log-domain form are settled over `ℝ` by
taking `Real.log` of these exact values.

External collaborators (the KMeans clusterer, each RandomForest expert's
`fit`/`predict`/`predict_proba`/`estimators_`, and the transcendental
`np.exp`) are black boxes per the spec; they enter the embedding as
parameters (`labels`, `confFn`, `refitFn`, `treePreds`, `riskPred`,
`rexp`).
-/

namespace MSRF

/-- The additive floor `1e-10` used by the source before taking logarithms and
in normalization denominators (`export_model.py` lines 49, 86, 92, 93, 137, 162). -/
def eps10 : ℚ := 1 / 10 ^ 10

/-- The constant `1e-5`: variance regularizer in confidence scoring (line 76)
and minimum responsibility mass required to refit an expert (line 150). -/
def eps5 : ℚ := 1 / 10 ^ 5

/-- Linear-domain version of `log_start = np.log(self.startprob_ + 1e-10)` (line 92):
the floored start-probability vector. -/
def fbStart (startprob : ℕ → ℚ) : ℕ → ℚ := fun i => startprob i + eps10

/-- Linear-domain version of `log_trans = np.log(self.transmat_ + 1e-10)` (line 93):
the floored transition matrix. -/
def fbTrans (transmat : ℕ → ℕ → ℚ) : ℕ → ℕ → ℚ := fun i j => transmat i j + eps10

/-- Chain slicing `log_B = log_emissions[cursor : cursor + length]` (line 97):
shift the global emission matrix by the cursor. -/
def shiftB (B : ℕ → ℕ → ℚ) (c : ℕ) : ℕ → ℕ → ℚ := fun t j => B (c + t) j

/-- Forward recursion of `_forward_backward` (lines 99-102), in the linear domain:
`log_alpha[0] = log_start + log_B[0]` becomes `alpha 0 j = start j * B 0 j`, and
`log_alpha[t,j] = logsumexp(log_alpha[t-1] + log_trans[:,j]) + log_B[t,j]` becomes
`alpha (t+1) j = (Σ_i alpha t i * trans i j) * B (t+1) j`.
`start` and `trans` are the already-floored `log_start`/`log_trans` values. -/
def fbAlpha (K : ℕ) (start : ℕ → ℚ) (trans B : ℕ → ℕ → ℚ) : ℕ → ℕ → ℚ
  | 0, j => start j * B 0 j
  | t + 1, j => (∑ i in Finset.range K, fbAlpha K start trans B t i * trans i j) * B (t + 1) j

/-- Backward recursion of `_forward_backward` (lines 104-107) indexed by distance
`d` from the last time step of a chain of length `L`: `log_beta[L-1] = 0` becomes
`betaAux 0 = 1`, and `log_beta[t,i] = logsumexp(log_trans[i,:] + log_B[t+1] + log_beta[t+1])`
becomes `betaAux (d+1) i = Σ_j trans i j * B (L-1-d) j * betaAux d j` with `t = L-2-d`. -/
def fbBetaAux (K L : ℕ) (trans B : ℕ → ℕ → ℚ) : ℕ → ℕ → ℚ
  | 0, _ => 1
  | d + 1, i => ∑ j in Finset.range K, trans i j * B (L - 1 - d) j * fbBetaAux K L trans B d j

/-- The backward variable at time `t` of a chain of length `L`. -/
def fbBeta (K L : ℕ) (trans B : ℕ → ℕ → ℚ) (t i : ℕ) : ℚ :=
  fbBetaAux K L trans B (L - 1 - t) i

/-- Per-row normalizer of the posterior: the linear-domain value of
`logsumexp(log_gamma[t])` before the subtraction on line 109. -/
def gammaDen (K L : ℕ) (start : ℕ → ℚ) (trans B : ℕ → ℕ → ℚ) (t : ℕ) : ℚ :=
  ∑ j in Finset.range K, fbAlpha K start trans B t j * fbBeta K L trans B t j

/-- Posterior responsibility `gamma[t, j]` of one chain (lines 108-110):
`exp(log_alpha + log_beta - logsumexp(log_alpha + log_beta))`. -/
def gammaVal (K L : ℕ) (start : ℕ → ℚ) (trans B : ℕ → ℕ → ℚ) (t j : ℕ) : ℚ :=
  fbAlpha K start trans B t j * fbBeta K L trans B t j / gammaDen K L start trans B t

/-- The `L × K` block of `gamma` contributed by one chain (line 110). -/
def chainGammaRows (K L : ℕ) (start : ℕ → ℚ) (trans B : ℕ → ℕ → ℚ) : List (List ℚ) :=
  (List.range L).map (fun t => (List.range K).map (gammaVal K L start trans B t))

/-- The full `gamma` matrix returned by `_forward_backward`: the chain blocks
concatenated in order, the cursor advancing by each chain's length (lines 95-118). -/
def fbGamma (K : ℕ) (startprob : ℕ → ℚ) (transmat : ℕ → ℕ → ℚ) :
    (ℕ → ℕ → ℚ) → List ℕ → List (List ℚ)
  | _, [] => []
  | B, L :: rest =>
      chainGammaRows K L (fbStart startprob) (fbTrans transmat) B ++
        fbGamma K startprob transmat (shiftB B L) rest

/-- Unnormalized pairwise transition posterior
`exp(log_alpha[t,i] + log_trans[i,j] + log_B[t+1,j] + log_beta[t+1,j])` (line 115). -/
def xiVal (K L : ℕ) (start : ℕ → ℚ) (trans B : ℕ → ℕ → ℚ) (t i j : ℕ) : ℚ :=
  fbAlpha K start trans B t i * trans i j * B (t + 1) j * fbBeta K L trans B (t + 1) j

/-- The full-matrix normalizer `logsumexp(log_xi)` of line 116, in the linear domain. -/
def xiDen (K L : ℕ) (start : ℕ → ℚ) (trans B : ℕ → ℕ → ℚ) (t : ℕ) : ℚ :=
  ∑ i in Finset.range K, ∑ j in Finset.range K, xiVal K L start trans B t i j

/-- One chain's contribution to `xi_sum`: the normalized pairwise posteriors summed
over the chain's `L - 1` adjacent pairs (lines 111-117). -/
def chainXiSum (K L : ℕ) (start : ℕ → ℚ) (trans B : ℕ → ℕ → ℚ) (i j : ℕ) : ℚ :=
  ∑ t in Finset.range (L - 1), xiVal K L start trans B t i j / xiDen K L start trans B t

/-- The accumulated `xi_sum` over all chains (lines 91, 117, 118). -/
def fbXiSum (K : ℕ) (startprob : ℕ → ℚ) (transmat : ℕ → ℕ → ℚ) :
    (ℕ → ℕ → ℚ) → List ℕ → ℕ → ℕ → ℚ
  | _, [] => fun _ _ => 0
  | B, L :: rest => fun i j =>
      chainXiSum K L (fbStart startprob) (fbTrans transmat) B i j +
        fbXiSum K startprob transmat (shiftB B L) rest i j

/-- One chain's likelihood: the linear-domain value of `logsumexp(log_alpha[-1])`
(line 103). -/
def chainLik (K L : ℕ) (start : ℕ → ℚ) (trans B : ℕ → ℕ → ℚ) : ℚ :=
  ∑ j in Finset.range K, fbAlpha K start trans B (L - 1) j

/-- The exponential of the returned `total_log_likelihood` (lines 94, 103): the
sum of per-chain log-likelihoods becomes the product of per-chain likelihoods. -/
def fbLik (K : ℕ) (startprob : ℕ → ℚ) (transmat : ℕ → ℕ → ℚ) :
    (ℕ → ℕ → ℚ) → List ℕ → ℚ
  | _, [] => 1
  | B, L :: rest =>
      chainLik K L (fbStart startprob) (fbTrans transmat) B *
        fbLik K startprob transmat (shiftB B L) rest

/-- The final forward vector `log_alpha[-1]` of each chain, in chain order,
in the linear domain. -/
def fbAlphaLasts (K : ℕ) (startprob : ℕ → ℚ) (transmat : ℕ → ℕ → ℚ) :
    (ℕ → ℕ → ℚ) → List ℕ → List (ℕ → ℚ)
  | _, [] => []
  | B, L :: rest =>
      fbAlpha K (fbStart startprob) (fbTrans transmat) B (L - 1) ::
        fbAlphaLasts K startprob transmat (shiftB B L) rest

/-- `np.var` with default arguments: population variance, mean of squared
deviations from the mean (line 75). -/
def npVar (xs : List ℚ) : ℚ :=
  (xs.map (fun x => (x - xs.sum / xs.length) ^ 2)).sum / xs.length

/-- `np.linspace(0, 1, K)` at index `k` (line 78): `K` evenly spaced prototypes in
`[0,1]`; a single point is `0`. -/
def linspace01 (K k : ℕ) : ℚ := if K ≤ 1 then 0 else (k : ℚ) / ((K : ℚ) - 1)

/-- Raw confidence-mode scores (lines 73-76): `scores[:,k] = 1 / (variance + 1e-5)`
where the variance is taken across expert `k`'s individual trees' predictions.
`treePreds k` is the black-box list `[tree.predict(X) for tree in expert_k.estimators_]`. -/
def confScores (K N : ℕ) (treePreds : ℕ → List (ℕ → ℚ)) : List (List ℚ) :=
  (List.range N).map (fun n =>
    (List.range K).map (fun k => 1 / (npVar ((treePreds k).map (fun tr => tr n)) + eps5)))

/-- Raw risk-mode scores (lines 77-82): `scores[:,k] = exp(-|risk_pred - prototype_k| * 5)`.
`riskPred k` is the black-box column `expert_k.predict_proba(X)[:, 1]` and `rexp`
the black-box exponential `np.exp`. -/
def riskScores (K N : ℕ) (riskPred : ℕ → ℕ → ℚ) (rexp : ℚ → ℚ) : List (List ℚ) :=
  (List.range N).map (fun n =>
    (List.range K).map (fun k => rexp (-|riskPred k n - linspace01 K k| * 5)))

/-- Row normalization of the score matrix (lines 85-86):
`scores / (scores.sum(axis=1) + 1e-10)`. -/
def rowNormalize (rows : List (List ℚ)) : List (List ℚ) :=
  rows.map (fun r => r.map (fun x => x / (r.sum + eps10)))

/-- `_get_expert_confidence` (lines 69-86): dispatch on the mode string, raise
`ValueError` for an unknown mode (line 84, modelled by `Except.error`), otherwise
return the row-normalized score matrix. -/
def getExpertConfidence (mode : String) (K N : ℕ) (treePreds : ℕ → List (ℕ → ℚ))
    (riskPred : ℕ → ℕ → ℚ) (rexp : ℚ → ℚ) : Except String (List (List ℚ)) :=
  if mode = "confidence" then
    Except.ok (rowNormalize (confScores K N treePreds))
  else if mode = "risk" then
    Except.ok (rowNormalize (riskScores K N riskPred rexp))
  else
    Except.error ("Unknown mode: " ++ mode)

/-- The linear-domain emissions fed to `_forward_backward` by `fit` and
`predict_proba` (lines 136-137, 161-162): the row-normalized confidences
(`conf / (row_sum + 1e-10)`, line 86) plus the `1e-10` floor of
`np.log(expert_confidences + 1e-10)`.  `conf` is the raw score matrix. -/
def normEmissions (K : ℕ) (conf : ℕ → ℕ → ℚ) : ℕ → ℕ → ℚ :=
  fun n k => conf n k / ((∑ i in Finset.range K, conf n i) + eps10) + eps10

/-- Column `gamma[:, k]` of the responsibility matrix (line 149). -/
def gammaCol (gamma : List (List ℚ)) (k : ℕ) : List ℚ :=
  gamma.map (fun r => r.getD k 0)

/-- The M-step transition update `xi_sum / xi_sum.sum(axis=1, keepdims=True)`
(line 147). -/
def mStepTransmat (K : ℕ) (xis : ℕ → ℕ → ℚ) : ℕ → ℕ → ℚ :=
  fun i j => xis i j / ∑ l in Finset.range K, xis i l

/-- The expert refit loop of the M-step (lines 148-151): walk the expert list,
refitting expert `k` with weights `gamma[:, k]` only when the weight mass
exceeds `1e-5`, leaving it untouched otherwise. -/
def updateExperts {E : Type} (refitFn : ℕ → E → List ℚ → E) (gamma : List (List ℚ)) :
    ℕ → List E → List E
  | _, [] => []
  | k, e :: rest =>
      (if eps5 < (gammaCol gamma k).sum then refitFn k e (gammaCol gamma k) else e) ::
        updateExperts refitFn gamma (k + 1) rest

/-- Static data of one `fit` call: the regime count `n_states`, `n_iter`, the
chain segmentation, the black-box raw confidence scorer (a function of the
current expert list; the mode branch of `_get_expert_confidence` applied to the
fixed `X_flat`), the black-box weighted refit `expert.fit(X, y, sample_weight)`,
and the convergence comparison `abs(delta) < tol` — a black-box predicate on the
linear-domain likelihood values, since it compares their logarithms. -/
structure EMContext (E : Type) where
  K : ℕ
  nIter : ℕ
  lengths : List ℕ
  confFn : List E → ℕ → ℕ → ℚ
  refitFn : ℕ → E → List ℚ → E
  near : ℚ → ℚ → Bool

/-- The mutable model state of `MSRF_Classifier` during `fit`: `startprob_`,
`transmat_`, `experts`, `prev_log_likelihood` (`none` models the initial
`-np.inf`) and `monitor_`.  Likelihoods are stored in the linear domain. -/
structure EMState (E : Type) where
  startprob : ℕ → ℚ
  transmat : ℕ → ℕ → ℚ
  experts : List E
  prevLL : Option ℚ
  monitor : List ℚ

/-- The emissions used by one EM iteration (lines 136-137). -/
def emEmissions {E : Type} (ctx : EMContext E) (s : EMState E) : ℕ → ℕ → ℚ :=
  normEmissions ctx.K (ctx.confFn s.experts)

/-- The `gamma` computed by one EM iteration's E-step (line 138). -/
def emGamma {E : Type} (ctx : EMContext E) (s : EMState E) : List (List ℚ) :=
  fbGamma ctx.K s.startprob s.transmat (emEmissions ctx s) ctx.lengths

/-- The `xi_sum` computed by one EM iteration's E-step (line 138). -/
def emXiSum {E : Type} (ctx : EMContext E) (s : EMState E) : ℕ → ℕ → ℚ :=
  fbXiSum ctx.K s.startprob s.transmat (emEmissions ctx s) ctx.lengths

/-- The (linear-domain) likelihood computed by one EM iteration's E-step (line 138). -/
def emLik {E : Type} (ctx : EMContext E) (s : EMState E) : ℚ :=
  fbLik ctx.K s.startprob s.transmat (emEmissions ctx s) ctx.lengths

/-- The convergence test `i > 1 and abs(delta) < self.tol` (line 143); with
`prev_log_likelihood = -inf` the numeric test is false. -/
def emConverged {E : Type} (ctx : EMContext E) (i : ℕ) (prev : Option ℚ) (curr : ℚ) : Bool :=
  decide (1 < i) && (match prev with
    | some p => ctx.near curr p
    | none => false)

/-- One iteration of the EM loop body (lines 135-151).  Returns `true` when the
loop `break`s: the monitor has been appended to, but `prev_log_likelihood`,
`transmat_` and the experts are left untouched.  Otherwise performs the M-step. -/
def emStep {E : Type} (ctx : EMContext E) (i : ℕ) (s : EMState E) : Bool × EMState E :=
  if emConverged ctx i s.prevLL (emLik ctx s) then
    (true, { s with monitor := s.monitor ++ [emLik ctx s] })
  else
    (false,
      { s with
        monitor := s.monitor ++ [emLik ctx s]
        prevLL := some (emLik ctx s)
        transmat := mStepTransmat ctx.K (emXiSum ctx s)
        experts := updateExperts ctx.refitFn (emGamma ctx s) 0 s.experts })

/-- The EM loop `for i in range(self.n_iter)` (line 135) with early `break`. -/
def fitLoop {E : Type} (ctx : EMContext E) : ℕ → ℕ → EMState E → EMState E
  | 0, _, s => s
  | n + 1, i, s =>
      let r := emStep ctx i s
      if r.1 then r.2 else fitLoop ctx n (i + 1) r.2

/-- `startprob_` as computed by `_init_params` (lines 50-51):
`np.bincount(labels) / len(labels)`, `labels` being the black-box KMeans output. -/
def startprobInit (labels : List ℕ) : ℕ → ℚ :=
  fun i => (labels.count i : ℚ) / labels.length

/-- `trans_counts[i, j]` of `_init_params` (lines 44-48): the number of
consecutive label pairs `(i, j)` in the flattened label sequence. -/
def transCounts (labels : List ℕ) (i j : ℕ) : ℚ :=
  ((labels.zip labels.tail).filter (fun p => p.1 = i && p.2 = j)).length

/-- `transmat_` as computed by `_init_params` (line 49):
`trans_counts / (trans_counts.sum(axis=1) + 1e-10)`. -/
def transmatInit (K : ℕ) (labels : List ℕ) : ℕ → ℕ → ℚ :=
  fun i j => transCounts labels i j / ((∑ l in Finset.range K, transCounts labels i l) + eps10)

/-- The model state after `_init_params` (lines 39-67) and the loop preamble
(lines 131-132): initializer-derived start/transition parameters, the freshly
fitted experts (black box), an empty monitor, `prev_log_likelihood = -inf`. -/
def initState {E : Type} (K : ℕ) (labels : List ℕ) (experts0 : List E) : EMState E :=
  { startprob := startprobInit labels
    transmat := transmatInit K labels
    experts := experts0
    prevLL := none
    monitor := [] }

/-- `fit` (lines 121-152): initialization followed by the EM loop. -/
def fitModel {E : Type} (ctx : EMContext E) (labels : List ℕ) (experts0 : List E) : EMState E :=
  fitLoop ctx ctx.nIter 0 (initState ctx.K labels experts0)

/-- The blended risk `final_risk_prob[n]` of `predict_proba` (lines 164-167):
`Σ_k gamma[n, k] * expert_k.predict_proba(X)[n, 1]`. -/
def finalRisk (K : ℕ) (gamma : List (List ℚ)) (expertRisk : ℕ → ℕ → ℚ) (n : ℕ) : ℚ :=
  ∑ k in Finset.range K, (gamma.getD n []).getD k 0 * expertRisk k n

/-- `predict_proba` (lines 154-168): recompute emissions and `gamma` for the
input, blend the black-box expert risks `expertRisk` with `gamma`, and return
the two-column matrix `[1 - final_risk, final_risk]` row by row. -/
def predictProba (K : ℕ) (startprob : ℕ → ℚ) (transmat : ℕ → ℕ → ℚ)
    (conf expertRisk : ℕ → ℕ → ℚ) (lengths : List ℕ) : List (List ℚ) :=
  let gamma := fbGamma K startprob transmat (normEmissions K conf) lengths
  (List.range lengths.sum).map (fun n => [1 - finalRisk K gamma expertRisk n,
    finalRisk K gamma expertRisk n])

/-- The flattened feature matrix built by `fit` and `predict_proba`
(lines 122-129, 155-160): `np.vstack` of a list input, the array itself otherwise. -/
def flattenInput : List (List (List ℚ)) ⊕ List (List ℚ) → List (List ℚ)
  | Sum.inl seqs => seqs.flatten
  | Sum.inr x => x

/-- The chain-length list derived by `fit` and `predict_proba` from their input
(lines 125, 129, 157, 160): one length per list element, or the single full length. -/
def lengthsOf : List (List (List ℚ)) ⊕ List (List ℚ) → List ℕ
  | Sum.inl seqs => seqs.map List.length
  | Sum.inr x => [x.length]

/- Concrete fixtures used only by witness theorems. -/

def ctxW : EMContext ℕ := ⟨1, 5, [1], fun _ _ _ => 1, fun _ e _ => e, fun _ _ => true⟩

def sW : EMState ℕ := ⟨fun _ => 1, fun _ _ => 1, [0], some 1, []⟩

def ctx5 : EMContext ℕ := ⟨2, 5, [1], fun _ _ k => if k = 0 then 1 else 0, fun _ e _ => e + 1,
  fun _ _ => false⟩

def s5 : EMState ℕ := ⟨fun _ => 1, fun _ _ => 1, [10, 20], none, []⟩

def ctx4 : EMContext ℕ := ⟨1, 5, [2], fun _ _ _ => 1, fun _ e _ => e, fun _ _ => false⟩

def oneV : ℕ → ℚ := fun _ => 1

def oneM : ℕ → ℕ → ℚ := fun _ _ => 1

def treesW : ℕ → List (ℕ → ℚ) := fun _ => [fun _ => 0]

def riskW : ℕ → ℕ → ℚ := fun _ _ => 0

/- Helper lemmas. -/

lemma eps10_pos : 0 < eps10 := by norm_num [eps10]

lemma eps5_pos : 0 < eps5 := by norm_num [eps5]

lemma emStep_startprob {E : Type} (ctx : EMContext E) (i : ℕ) (s : EMState E) :
    (emStep ctx i s).2.startprob = s.startprob := by
  unfold emStep
  split <;> rfl

lemma fitLoop_startprob {E : Type} (ctx : EMContext E) :
    ∀ (n i : ℕ) (s : EMState E), (fitLoop ctx n i s).startprob = s.startprob := by
  intro n
  induction n with
  | zero => intro i s; rfl
  | succ m ih =>
      intro i s
      simp only [fitLoop]
      split
      · exact emStep_startprob ctx i s
      · rw [ih (i + 1) (emStep ctx i s).2]
        exact emStep_startprob ctx i s

lemma emStep_true {E : Type} {ctx : EMContext E} {i : ℕ} {s : EMState E}
    (h : (emStep ctx i s).1 = true) :
    emStep ctx i s = (true, { s with monitor := s.monitor ++ [emLik ctx s] }) := by
  by_cases hc : emConverged ctx i s.prevLL (emLik ctx s) = true
  · unfold emStep
    rw [if_pos hc]
  · exfalso
    unfold emStep at h
    rw [if_neg hc] at h
    exact Bool.false_ne_true h

lemma emStep_false {E : Type} {ctx : EMContext E} {i : ℕ} {s : EMState E}
    (h : (emStep ctx i s).1 = false) :
    emStep ctx i s = (false,
      { s with
        monitor := s.monitor ++ [emLik ctx s]
        prevLL := some (emLik ctx s)
        transmat := mStepTransmat ctx.K (emXiSum ctx s)
        experts := updateExperts ctx.refitFn (emGamma ctx s) 0 s.experts }) := by
  by_cases hc : emConverged ctx i s.prevLL (emLik ctx s) = true
  · exfalso
    unfold emStep at h
    rw [if_pos hc] at h
    simp at h
  · unfold emStep
    rw [if_neg hc]

lemma updateExperts_getElem {E : Type} (refitFn : ℕ → E → List ℚ → E) (gamma : List (List ℚ)) :
    ∀ (es : List E) (k n : ℕ), ¬ eps5 < (gammaCol gamma (k + n)).sum →
      (updateExperts refitFn gamma k es)[n]? = es[n]? := by
  intro es
  induction es with
  | nil => intro k n _; rfl
  | cons e rest ih =>
      intro k n h
      cases n with
      | zero =>
          have hk : ¬ eps5 < (gammaCol gamma k).sum := by simpa using h
          simp [updateExperts, if_neg hk]
      | succ m =>
          have harith : k + 1 + m = k + (m + 1) := by omega
          simp only [updateExperts, List.getElem?_cons_succ]
          exact ih (k + 1) m (by rw [harith]; exact h)

lemma fbStart_pos {startprob : ℕ → ℚ} (hs : ∀ i, 0 ≤ startprob i) (i : ℕ) :
    0 < fbStart startprob i :=
  add_pos_of_nonneg_of_pos (hs i) eps10_pos

lemma fbTrans_pos {transmat : ℕ → ℕ → ℚ} (ht : ∀ i j, 0 ≤ transmat i j) (i j : ℕ) :
    0 < fbTrans transmat i j :=
  add_pos_of_nonneg_of_pos (ht i j) eps10_pos

lemma normEmissions_pos {K : ℕ} {conf : ℕ → ℕ → ℚ} (hc : ∀ n k, 0 ≤ conf n k) (n k : ℕ) :
    0 < normEmissions K conf n k := by
  unfold normEmissions
  refine add_pos_of_nonneg_of_pos (div_nonneg (hc n k) ?_) eps10_pos
  exact le_of_lt (add_pos_of_nonneg_of_pos (Finset.sum_nonneg fun i _ => hc n i) eps10_pos)

lemma fbAlpha_pos {K : ℕ} {start : ℕ → ℚ} {trans B : ℕ → ℕ → ℚ}
    (hK : 0 < K) (hs : ∀ i, 0 < start i) (ht : ∀ i j, 0 < trans i j)
    (hB : ∀ t j, 0 < B t j) : ∀ t j, 0 < fbAlpha K start trans B t j := by
  intro t
  induction t with
  | zero =>
      intro j
      show 0 < start j * B 0 j
      exact mul_pos (hs j) (hB 0 j)
  | succ m ih =>
      intro j
      show 0 < (∑ i in Finset.range K, fbAlpha K start trans B m i * trans i j) * B (m + 1) j
      refine mul_pos (Finset.sum_pos (fun i _ => mul_pos (ih i) (ht i j)) ?_) (hB (m + 1) j)
      exact Finset.nonempty_range_iff.mpr (Nat.pos_iff_ne_zero.mp hK)

lemma fbBetaAux_pos {K L : ℕ} {trans B : ℕ → ℕ → ℚ}
    (hK : 0 < K) (ht : ∀ i j, 0 < trans i j) (hB : ∀ t j, 0 < B t j) :
    ∀ d i, 0 < fbBetaAux K L trans B d i := by
  intro d
  induction d with
  | zero => intro i; exact one_pos
  | succ m ih =>
      intro i
      show 0 < ∑ j in Finset.range K, trans i j * B (L - 1 - m) j * fbBetaAux K L trans B m j
      refine Finset.sum_pos (fun j _ => mul_pos (mul_pos (ht i j) (hB _ j)) (ih j)) ?_
      exact Finset.nonempty_range_iff.mpr (Nat.pos_iff_ne_zero.mp hK)

lemma fbBeta_pos {K L : ℕ} {trans B : ℕ → ℕ → ℚ}
    (hK : 0 < K) (ht : ∀ i j, 0 < trans i j) (hB : ∀ t j, 0 < B t j) (t i : ℕ) :
    0 < fbBeta K L trans B t i :=
  fbBetaAux_pos hK ht hB (L - 1 - t) i

lemma gammaDen_pos {K L : ℕ} {start : ℕ → ℚ} {trans B : ℕ → ℕ → ℚ}
    (hK : 0 < K) (hs : ∀ i, 0 < start i) (ht : ∀ i j, 0 < trans i j)
    (hB : ∀ t j, 0 < B t j) (t : ℕ) : 0 < gammaDen K L start trans B t := by
  refine Finset.sum_pos
    (fun j _ => mul_pos (fbAlpha_pos hK hs ht hB t j) (fbBeta_pos hK ht hB t j)) ?_
  exact Finset.nonempty_range_iff.mpr (Nat.pos_iff_ne_zero.mp hK)

lemma listSumRange (f : ℕ → ℚ) : ∀ n, ((List.range n).map f).sum = ∑ i in Finset.range n, f i := by
  intro n
  induction n with
  | zero => simp
  | succ m ih => rw [List.range_succ]; simp [ih, Finset.sum_range_succ]

lemma chainGammaRow_sum {K L : ℕ} {start : ℕ → ℚ} {trans B : ℕ → ℕ → ℚ}
    (hK : 0 < K) (hs : ∀ i, 0 < start i) (ht : ∀ i j, 0 < trans i j)
    (hB : ∀ t j, 0 < B t j) (t : ℕ) :
    ((List.range K).map (gammaVal K L start trans B t)).sum = 1 := by
  rw [listSumRange]
  unfold gammaVal
  rw [← Finset.sum_div]
  exact div_self (ne_of_gt (gammaDen_pos hK hs ht hB t))

lemma fbGamma_length (K : ℕ) (startprob : ℕ → ℚ) (transmat : ℕ → ℕ → ℚ) :
    ∀ (lengths : List ℕ) (B : ℕ → ℕ → ℚ),
      (fbGamma K startprob transmat B lengths).length = lengths.sum := by
  intro lengths
  induction lengths with
  | nil => intro B; rfl
  | cons L rest ih =>
      intro B
      simp [fbGamma, chainGammaRows, ih]

lemma fbGamma_row_sum {K : ℕ} {startprob : ℕ → ℚ} {transmat : ℕ → ℕ → ℚ}
    (hK : 0 < K) (hs : ∀ i, 0 ≤ startprob i) (ht : ∀ i j, 0 ≤ transmat i j) :
    ∀ (lengths : List ℕ) (B : ℕ → ℕ → ℚ), (∀ t j, 0 < B t j) →
      ∀ r ∈ fbGamma K startprob transmat B lengths, r.sum = 1 := by
  intro lengths
  induction lengths with
  | nil => intro B _ r hr; simp [fbGamma] at hr
  | cons L rest ih =>
      intro B hB r hr
      simp only [fbGamma] at hr
      rcases List.mem_append.mp hr with h | h
      · unfold chainGammaRows at h
        rcases List.mem_map.mp h with ⟨t, _, rfl⟩
        exact chainGammaRow_sum hK (fbStart_pos hs) (fbTrans_pos ht) hB t
      · exact ih (shiftB B L) (fun t j => hB (L + t) j) r h

lemma chainLik_pos {K L : ℕ} {start : ℕ → ℚ} {trans B : ℕ → ℕ → ℚ}
    (hK : 0 < K) (hs : ∀ i, 0 < start i) (ht : ∀ i j, 0 < trans i j)
    (hB : ∀ t j, 0 < B t j) : 0 < chainLik K L start trans B :=
  Finset.sum_pos (fun j _ => fbAlpha_pos hK hs ht hB (L - 1) j)
    (Finset.nonempty_range_iff.mpr (Nat.pos_iff_ne_zero.mp hK))

lemma fbLik_pos {K : ℕ} {startprob : ℕ → ℚ} {transmat : ℕ → ℕ → ℚ}
    (hK : 0 < K) (hs : ∀ i, 0 ≤ startprob i) (ht : ∀ i j, 0 ≤ transmat i j) :
    ∀ (lengths : List ℕ) (B : ℕ → ℕ → ℚ), (∀ t j, 0 < B t j) →
      0 < fbLik K startprob transmat B lengths := by
  intro lengths
  induction lengths with
  | nil => intro B _; exact one_pos
  | cons L rest ih =>
      intro B hB
      exact mul_pos (chainLik_pos hK (fbStart_pos hs) (fbTrans_pos ht) hB)
        (ih (shiftB B L) fun t j => hB (L + t) j)

lemma fbLik_log_sum {K : ℕ} {startprob : ℕ → ℚ} {transmat : ℕ → ℕ → ℚ}
    (hK : 0 < K) (hs : ∀ i, 0 ≤ startprob i) (ht : ∀ i j, 0 ≤ transmat i j) :
    ∀ (lengths : List ℕ) (B : ℕ → ℕ → ℚ), (∀ t j, 0 < B t j) →
      Real.log (fbLik K startprob transmat B lengths : ℝ) =
        ((fbAlphaLasts K startprob transmat B lengths).map
          (fun v => Real.log (∑ j in Finset.range K, Real.exp (Real.log (v j : ℝ))))).sum := by
  intro lengths
  induction lengths with
  | nil => intro B _; simp [fbLik, fbAlphaLasts]
  | cons L rest ih =>
      intro B hB
      have hst := fbStart_pos hs
      have htr := fbTrans_pos ht
      have hcl : 0 < chainLik K L (fbStart startprob) (fbTrans transmat) B :=
        chainLik_pos hK hst htr hB
      have hfl : 0 < fbLik K startprob transmat (shiftB B L) rest :=
        fbLik_pos hK hs ht rest (shiftB B L) fun t j => hB (L + t) j
      have e : fbLik K startprob transmat B (L :: rest) =
          chainLik K L (fbStart startprob) (fbTrans transmat) B *
            fbLik K startprob transmat (shiftB B L) rest := rfl
      rw [e, Rat.cast_mul,
        Real.log_mul (ne_of_gt (by exact_mod_cast hcl)) (ne_of_gt (by exact_mod_cast hfl))]
      have e2 : fbAlphaLasts K startprob transmat B (L :: rest) =
          fbAlpha K (fbStart startprob) (fbTrans transmat) B (L - 1) ::
            fbAlphaLasts K startprob transmat (shiftB B L) rest := rfl
      rw [e2, List.map_cons, List.sum_cons, ih (shiftB B L) fun t j => hB (L + t) j]
      congr 1
      have hsum : (∑ j in Finset.range K,
          Real.exp (Real.log (fbAlpha K (fbStart startprob) (fbTrans transmat) B (L - 1) j : ℝ))) =
          ((chainLik K L (fbStart startprob) (fbTrans transmat) B : ℚ) : ℝ) := by
        unfold chainLik
        rw [Rat.cast_sum]
        exact Finset.sum_congr rfl fun j _ =>
          Real.exp_log (by exact_mod_cast fbAlpha_pos hK hst htr hB (L - 1) j)
      rw [hsum]

lemma xiVal_pos {K L : ℕ} {start : ℕ → ℚ} {trans B : ℕ → ℕ → ℚ}
    (hK : 0 < K) (hs : ∀ i, 0 < start i) (ht : ∀ i j, 0 < trans i j)
    (hB : ∀ t j, 0 < B t j) (t i j : ℕ) : 0 < xiVal K L start trans B t i j := by
  unfold xiVal
  exact mul_pos (mul_pos (mul_pos (fbAlpha_pos hK hs ht hB t i) (ht i j)) (hB (t + 1) j))
    (fbBeta_pos hK ht hB (t + 1) j)

lemma xiDen_pos {K L : ℕ} {start : ℕ → ℚ} {trans B : ℕ → ℕ → ℚ}
    (hK : 0 < K) (hs : ∀ i, 0 < start i) (ht : ∀ i j, 0 < trans i j)
    (hB : ∀ t j, 0 < B t j) (t : ℕ) : 0 < xiDen K L start trans B t := by
  unfold xiDen
  have hne := Finset.nonempty_range_iff.mpr (Nat.pos_iff_ne_zero.mp hK)
  exact Finset.sum_pos
    (fun i _ => Finset.sum_pos (fun j _ => xiVal_pos hK hs ht hB t i j) hne) hne

lemma chainXiSum_nonneg {K L : ℕ} {start : ℕ → ℚ} {trans B : ℕ → ℕ → ℚ}
    (hK : 0 < K) (hs : ∀ i, 0 < start i) (ht : ∀ i j, 0 < trans i j)
    (hB : ∀ t j, 0 < B t j) (i j : ℕ) : 0 ≤ chainXiSum K L start trans B i j :=
  Finset.sum_nonneg fun t _ => div_nonneg (le_of_lt (xiVal_pos hK hs ht hB t i j))
    (le_of_lt (xiDen_pos hK hs ht hB t))

lemma chainXiSum_pos {K L : ℕ} {start : ℕ → ℚ} {trans B : ℕ → ℕ → ℚ}
    (hK : 0 < K) (hs : ∀ i, 0 < start i) (ht : ∀ i j, 0 < trans i j)
    (hB : ∀ t j, 0 < B t j) (hL : 2 ≤ L) (i j : ℕ) : 0 < chainXiSum K L start trans B i j :=
  Finset.sum_pos (fun t _ => div_pos (xiVal_pos hK hs ht hB t i j) (xiDen_pos hK hs ht hB t))
    (Finset.nonempty_range_iff.mpr (by omega))

lemma fbXiSum_nonneg {K : ℕ} {startprob : ℕ → ℚ} {transmat : ℕ → ℕ → ℚ}
    (hK : 0 < K) (hs : ∀ i, 0 ≤ startprob i) (ht : ∀ i j, 0 ≤ transmat i j) :
    ∀ (lengths : List ℕ) (B : ℕ → ℕ → ℚ), (∀ t j, 0 < B t j) →
      ∀ i j, 0 ≤ fbXiSum K startprob transmat B lengths i j := by
  intro lengths
  induction lengths with
  | nil => intro B _ i j; exact le_refl 0
  | cons L rest ih =>
      intro B hB i j
      exact add_nonneg (chainXiSum_nonneg hK (fbStart_pos hs) (fbTrans_pos ht) hB i j)
        (ih (shiftB B L) (fun t j => hB (L + t) j) i j)

lemma fbXiSum_pos {K : ℕ} {startprob : ℕ → ℚ} {transmat : ℕ → ℕ → ℚ}
    (hK : 0 < K) (hs : ∀ i, 0 ≤ startprob i) (ht : ∀ i j, 0 ≤ transmat i j) :
    ∀ (lengths : List ℕ) (B : ℕ → ℕ → ℚ), (∀ t j, 0 < B t j) →
      (∃ L ∈ lengths, 2 ≤ L) → ∀ i j, 0 < fbXiSum K startprob transmat B lengths i j := by
  intro lengths
  induction lengths with
  | nil => intro B _ hl i j; simp at hl
  | cons L rest ih =>
      intro B hB hl i j
      rcases hl with ⟨M, hmem, hM⟩
      rcases List.mem_cons.mp hmem with h | h
      · subst h
        exact add_pos_of_pos_of_nonneg
          (chainXiSum_pos hK (fbStart_pos hs) (fbTrans_pos ht) hB hM i j)
          (fbXiSum_nonneg hK hs ht rest (shiftB B M) (fun t j => hB (M + t) j) i j)
      · exact add_pos_of_nonneg_of_pos
          (chainXiSum_nonneg hK (fbStart_pos hs) (fbTrans_pos ht) hB i j)
          (ih (shiftB B L) (fun t j => hB (L + t) j) ⟨M, h, hM⟩ i j)

lemma npVar_nonneg (xs : List ℚ) : 0 ≤ npVar xs := by
  unfold npVar
  refine div_nonneg (List.sum_nonneg ?_) (Nat.cast_nonneg _)
  intro x hx
  rcases List.mem_map.mp hx with ⟨a, _, rfl⟩
  exact sq_nonneg _

lemma listSumDiv (r : List ℚ) (c : ℚ) : (r.map (fun x => x / c)).sum = r.sum / c := by
  induction r with
  | nil => simp
  | cons a l ih => simp [ih, add_div]

lemma normRow_spec {r : List ℚ} (hpos : ∀ x ∈ r, 0 < x) (hne : r ≠ []) :
    (∀ x ∈ r.map (fun x => x / (r.sum + eps10)), 0 ≤ x) ∧
    0 < (r.map (fun x => x / (r.sum + eps10))).sum ∧
    (r.map (fun x => x / (r.sum + eps10))).sum < 1 := by
  have hs : 0 < r.sum := List.sum_pos r hpos hne
  have hd : 0 < r.sum + eps10 := by linarith [eps10_pos]
  refine ⟨?_, ?_, ?_⟩
  · intro x hx
    rcases List.mem_map.mp hx with ⟨a, ha, rfl⟩
    exact div_nonneg (le_of_lt (hpos a ha)) (le_of_lt hd)
  · rw [listSumDiv]
    exact div_pos hs hd
  · rw [listSumDiv]
    exact (div_lt_one hd).mpr (by linarith [eps10_pos])

lemma rowNormalize_of_raw {K N : ℕ} {raw : List (List ℚ)} (hK : 0 < K)
    (hlen : raw.length = N) (hrows : ∀ r ∈ raw, r.length = K ∧ ∀ x ∈ r, 0 < x) :
    (rowNormalize raw).length = N ∧
    ∀ r ∈ rowNormalize raw, r.length = K ∧ (∀ x ∈ r, 0 ≤ x) ∧ 0 < r.sum ∧ r.sum < 1 := by
  constructor
  · simp [rowNormalize, hlen]
  · intro r hr
    rcases List.mem_map.mp hr with ⟨r0, hr0, rfl⟩
    obtain ⟨hlen0, hpos0⟩ := hrows r0 hr0
    have hne : r0 ≠ [] := List.length_pos.mp (hlen0 ▸ hK)
    obtain ⟨h1, h3, h4⟩ := normRow_spec hpos0 hne
    exact ⟨by simp [hlen0], h1, h3, h4⟩

lemma confScores_spec (K N : ℕ) (treePreds : ℕ → List (ℕ → ℚ)) :
    (confScores K N treePreds).length = N ∧
    ∀ r ∈ confScores K N treePreds, r.length = K ∧ ∀ x ∈ r, 0 < x := by
  constructor
  · simp [confScores]
  · intro r hr
    rcases List.mem_map.mp hr with ⟨n, _, rfl⟩
    refine ⟨by simp, ?_⟩
    intro x hx
    rcases List.mem_map.mp hx with ⟨k, _, rfl⟩
    exact div_pos one_pos (add_pos_of_nonneg_of_pos (npVar_nonneg _) eps5_pos)

lemma riskScores_spec (K N : ℕ) (riskPred : ℕ → ℕ → ℚ) {rexp : ℚ → ℚ}
    (hexp : ∀ x, 0 < rexp x) :
    (riskScores K N riskPred rexp).length = N ∧
    ∀ r ∈ riskScores K N riskPred rexp, r.length = K ∧ ∀ x ∈ r, 0 < x := by
  constructor
  · simp [riskScores]
  · intro r hr
    rcases List.mem_map.mp hr with ⟨n, _, rfl⟩
    refine ⟨by simp, ?_⟩
    intro x hx
    rcases List.mem_map.mp hx with ⟨k, _, rfl⟩
    exact hexp _

/- Claim theorems and witnesses. -/

/-- C10: the chain-length list that `fit` and `predict_proba` pass to
`_forward_backward` is derived from the input itself — one length per list
element, or a single length equal to the full sample count — so it always sums
exactly to the row count of the flattened feature matrix. -/
theorem C10_lengths_partition_input (input : List (List (List ℚ)) ⊕ List (List ℚ)) :
    (lengthsOf input).sum = (flattenInput input).length := by
  cases input with
  | inl seqs => simp [lengthsOf, flattenInput]
  | inr x => simp [lengthsOf, flattenInput]

/-- C6: `startprob_` is set exactly once, by `_init_params`; no EM iteration
modifies it, so the start-probability vector after `fit` returns is exactly the
value the Regime Initializer computed. -/
theorem C6_startprob_set_once {E : Type} (ctx : EMContext E) (labels : List ℕ)
    (experts0 : List E) :
    (fitModel ctx labels experts0).startprob = startprobInit labels ∧
    (fitModel ctx labels experts0).startprob = (initState ctx.K labels experts0).startprob := by
  constructor
  · exact fitLoop_startprob ctx ctx.nIter 0 (initState ctx.K labels experts0)
  · exact fitLoop_startprob ctx ctx.nIter 0 (initState ctx.K labels experts0)

/-- C3: the convergence check of `fit` can only fire once at least two
iterations have completed (`i > 1`); whenever it fires the loop stops at once,
with `transmat_` and the expert list exactly as they were at the end of the
previous iteration — the M-step of that iteration is not performed. -/
theorem C3_convergence_check_frame (E : Type) (ctx : EMContext E) (s : EMState E) :
    (∀ i, i ≤ 1 → (emStep ctx i s).1 = false) ∧
    (∀ i p, 1 < i → s.prevLL = some p → ctx.near (emLik ctx s) p = true →
      (emStep ctx i s).1 = true) ∧
    (∀ i, (emStep ctx i s).1 = true →
      (emStep ctx i s).2.transmat = s.transmat ∧
      (emStep ctx i s).2.experts = s.experts ∧
      ∀ n, fitLoop ctx (n + 1) i s = (emStep ctx i s).2) := by
  refine ⟨?_, ?_, ?_⟩
  · intro i hi
    have hconv : emConverged ctx i s.prevLL (emLik ctx s) = false := by
      unfold emConverged
      have : decide (1 < i) = false := by
        simp only [decide_eq_false_iff_not]
        omega
      rw [this, Bool.false_and]
    unfold emStep
    rw [hconv]
    rfl
  · intro i p hi hp hnear
    have hconv : emConverged ctx i s.prevLL (emLik ctx s) = true := by
      unfold emConverged
      rw [hp]
      simp [hnear, hi]
    unfold emStep
    rw [hconv]
    rfl
  · intro i h
    have hs := emStep_true h
    refine ⟨by rw [hs], by rw [hs], ?_⟩
    intro n
    simp only [fitLoop]
    rw [if_pos h]

/-- Witness for C3 at a concrete context: the check does not fire at iteration 0,
fires at iteration 2 when the tolerance test passes, and the firing step keeps
`transmat_` and the experts and stops the loop. -/
theorem C3_witness :
    (emStep ctxW 0 sW).1 = false ∧
    (emStep ctxW 2 sW).1 = true ∧
    (emStep ctxW 2 sW).2.transmat = sW.transmat ∧
    (emStep ctxW 2 sW).2.experts = sW.experts ∧
    fitLoop ctxW 3 2 sW = (emStep ctxW 2 sW).2 := by
  have T := C3_convergence_check_frame ℕ ctxW sW
  have h2 : (emStep ctxW 2 sW).1 = true := T.2.1 2 1 (by norm_num) rfl rfl
  have T3 := T.2.2 2 h2
  exact ⟨T.1 0 (by norm_num), h2, T3.1, T3.2.1, T3.2.2 2⟩

/-- C4 counterexample: on the valid single-sample training input (K = 1, one
chain of length 1) the first EM iteration does perform its M-step, but
`xi_sum` is the zero matrix, so the transition-row update divides zero by zero
(`NaN` in the source, `0` in exact rational arithmetic) and the row does not
sum to 1. -/
theorem C4_counterexample :
    (emStep ctxW 0 sW).1 = false ∧
    ∑ j in Finset.range 1, (emStep ctxW 0 sW).2.transmat 0 j ≠ 1 := by
  have hstep : (emStep ctxW 0 sW).1 = false := rfl
  refine ⟨hstep, ?_⟩
  rw [emStep_false hstep]
  show ∑ j in Finset.range 1, mStepTransmat ctxW.K (emXiSum ctxW sW) 0 j ≠ 1
  simp [mStepTransmat, emXiSum, fbXiSum, chainXiSum, ctxW, sW]

/-- C4 (amended): after the M-step of an EM iteration, provided at least one
chain has length ≥ 2 (so `xi_sum` has a positive entry in every row — on
inputs where every chain has length 1 the update is 0/0 and the property
fails), each row of `transmat_` is non-negative and sums exactly to 1. -/
theorem C4_transmat_rows_amended {E : Type} (ctx : EMContext E) (i : ℕ) (s : EMState E)
    (hK : 0 < ctx.K) (hs : ∀ j, 0 ≤ s.startprob j) (ht : ∀ a b, 0 ≤ s.transmat a b)
    (hc : ∀ n k, 0 ≤ ctx.confFn s.experts n k) (hl : ∃ L ∈ ctx.lengths, 2 ≤ L)
    (hstep : (emStep ctx i s).1 = false) :
    ∀ r, (∀ j, 0 ≤ (emStep ctx i s).2.transmat r j) ∧
      ∑ j in Finset.range ctx.K, (emStep ctx i s).2.transmat r j = 1 := by
  rw [emStep_false hstep]
  intro r
  show (∀ j, 0 ≤ mStepTransmat ctx.K (emXiSum ctx s) r j) ∧
    ∑ j in Finset.range ctx.K, mStepTransmat ctx.K (emXiSum ctx s) r j = 1
  have hB : ∀ t j, 0 < emEmissions ctx s t j := normEmissions_pos hc
  have hxi : ∀ a b, 0 < emXiSum ctx s a b :=
    fbXiSum_pos hK hs ht ctx.lengths (emEmissions ctx s) hB hl
  have hrow : 0 < ∑ l in Finset.range ctx.K, emXiSum ctx s r l :=
    Finset.sum_pos (fun l _ => hxi r l)
      (Finset.nonempty_range_iff.mpr (Nat.pos_iff_ne_zero.mp hK))
  constructor
  · intro j
    exact div_nonneg (le_of_lt (hxi r j)) (le_of_lt hrow)
  · unfold mStepTransmat
    rw [← Finset.sum_div]
    exact div_self (ne_of_gt hrow)

/-- Witness for the amended C4: one chain of length 2 with a single regime; the
M-step of iteration 0 produces a transition row of non-negative entries summing
to 1. -/
theorem C4_witness :
    (emStep ctx4 0 sW).1 = false ∧
    ∀ r, (∀ j, 0 ≤ (emStep ctx4 0 sW).2.transmat r j) ∧
      ∑ j in Finset.range 1, (emStep ctx4 0 sW).2.transmat r j = 1 := by
  refine ⟨rfl, ?_⟩
  exact C4_transmat_rows_amended ctx4 0 sW Nat.one_pos (fun _ => by norm_num [sW])
    (fun _ _ => by norm_num [sW]) (fun _ _ => by norm_num [ctx4])
    ⟨2, by norm_num [ctx4], le_refl 2⟩ rfl

/-- C8 counterexample: in confidence mode with one sample, one expert whose
single tree predicts 0, the unnormalized score is `1e5` and the returned row
sums to `10^15 / (10^15 + 1)`, not 1. -/
theorem C8_counterexample :
    (((getExpertConfidence "confidence" 1 1 treesW riskW id).toOption.getD []).getD 0 []).sum
      ≠ 1 := by
  simp only [getExpertConfidence, if_pos rfl, Except.toOption, rowNormalize, confScores,
    npVar, treesW, List.range_succ, List.range_zero, List.nil_append, List.map_cons,
    List.map_nil, List.sum_cons, List.sum_nil, List.length_cons, List.length_nil,
    Option.getD_some, List.getD_cons_zero]
  norm_num [eps5, eps10]

/-- C8 (amended): for either known mode the Emission Scorer returns an N×K
matrix whose entries are all non-negative; because of the `1e-10` added to each
normalization denominator, every row sums to `s / (s + 1e-10)` where `s > 0` is
the row's raw score sum — strictly between 0 and 1 rather than exactly 1. -/
theorem C8_scorer_matrix_amended (mode : String) (K N : ℕ) (treePreds : ℕ → List (ℕ → ℚ))
    (riskPred : ℕ → ℕ → ℚ) (rexp : ℚ → ℚ) (hmode : mode = "confidence" ∨ mode = "risk")
    (hexp : ∀ x, 0 < rexp x) (hK : 0 < K) :
    ∃ rows, getExpertConfidence mode K N treePreds riskPred rexp = Except.ok rows ∧
      rows.length = N ∧
      ∀ r ∈ rows, r.length = K ∧ (∀ x ∈ r, 0 ≤ x) ∧ 0 < r.sum ∧ r.sum < 1 := by
  rcases hmode with h | h <;> subst h
  · obtain ⟨hl, hrows⟩ := confScores_spec K N treePreds
    obtain ⟨h1, h2⟩ := rowNormalize_of_raw hK hl hrows
    exact ⟨rowNormalize (confScores K N treePreds), rfl, h1, h2⟩
  · obtain ⟨hl, hrows⟩ := riskScores_spec K N riskPred hexp
    obtain ⟨h1, h2⟩ := rowNormalize_of_raw hK hl hrows
    exact ⟨rowNormalize (riskScores K N riskPred rexp), rfl, h1, h2⟩

/-- Witness for the amended C8: a concrete confidence-mode invocation returns a
2×1 matrix of non-negative entries with every row sum in (0, 1). -/
theorem C8_witness :
    ∃ rows, getExpertConfidence "confidence" 1 2 treesW riskW (fun _ => 1) =
        Except.ok rows ∧
      rows.length = 2 ∧
      ∀ r ∈ rows, r.length = 1 ∧ (∀ x ∈ r, 0 ≤ x) ∧ 0 < r.sum ∧ r.sum < 1 :=
  C8_scorer_matrix_amended "confidence" 1 2 treesW riskW (fun _ => 1) (Or.inl rfl)
    (fun _ => by norm_num) Nat.one_pos

/-- C5: in any EM iteration, an expert whose responsibility column sums below
the `1e-5` floor is not refit: its entry in the expert list is unchanged by the
iteration. -/
theorem C5_skip_degenerate_expert {E : Type} (ctx : EMContext E) (i : ℕ) (s : EMState E)
    (k : ℕ) (h : (gammaCol (emGamma ctx s) k).sum < eps5) :
    (emStep ctx i s).2.experts[k]? = s.experts[k]? := by
  by_cases hc : (emStep ctx i s).1
  · rw [emStep_true hc]
  · rw [emStep_false (Bool.eq_false_iff.mpr hc)]
    exact updateExperts_getElem ctx.refitFn (emGamma ctx s) s.experts 0 k
      (by simpa using not_lt_of_gt h)

/-- Witness for C5 at a concrete context: regime 1 receives responsibility mass
below `1e-5`, and the corresponding expert is left untouched by the step. -/
theorem C5_witness :
    (gammaCol (emGamma ctx5 s5) 1).sum < eps5 ∧
    (emStep ctx5 0 s5).2.experts[1]? = s5.experts[1]? := by
  have h : (gammaCol (emGamma ctx5 s5) 1).sum < eps5 := by
    simp only [emGamma, emEmissions, normEmissions, fbGamma, chainGammaRows, gammaVal, gammaDen,
      fbAlpha, fbBeta, fbBetaAux, fbStart, fbTrans, shiftB, gammaCol, ctx5, s5,
      List.range_succ, List.range_zero, List.nil_append, List.map_append, List.map_cons,
      List.map_nil, List.append_nil, Finset.sum_range_succ, Finset.sum_range_zero,
      List.sum_cons, List.sum_nil, List.getD_cons_zero, List.getD_cons_succ]
    norm_num [eps5, eps10]
  exact ⟨h, C5_skip_degenerate_expert ctx5 0 s5 1 h⟩

/-- C7: invoking the Emission Scorer with a mode string other than
`"confidence"` or `"risk"` yields the `ValueError` of line 84 — no default mode
and no score matrix — while both known modes return a score matrix. -/
theorem C7_unknown_mode_fails (K N : ℕ) (treePreds : ℕ → List (ℕ → ℚ))
    (riskPred : ℕ → ℕ → ℚ) (rexp : ℚ → ℚ) :
    (∀ mode, mode ≠ "confidence" → mode ≠ "risk" →
      getExpertConfidence mode K N treePreds riskPred rexp =
        Except.error ("Unknown mode: " ++ mode)) ∧
    getExpertConfidence "confidence" K N treePreds riskPred rexp =
      Except.ok (rowNormalize (confScores K N treePreds)) ∧
    getExpertConfidence "risk" K N treePreds riskPred rexp =
      Except.ok (rowNormalize (riskScores K N riskPred rexp)) := by
  refine ⟨?_, ?_, ?_⟩
  · intro mode h1 h2
    unfold getExpertConfidence
    rw [if_neg h1, if_neg h2]
  · rfl
  · rfl

/-- C1: `_forward_backward` computes the claimed log-domain forward recursion.
Writing `log` for `Real.log` of the exact linear-domain values (`fbAlpha` is the
exponential of the computed `log_alpha`, `fbStart`/`fbTrans` of `log_start`/
`log_trans`, and `logsumexp xs = log (Σ exp xs)`): `log_alpha[0] = log_start +
log_B[0]`; for every t ≥ 1 and regime j, `log_alpha[t,j] =
logsumexp_i(log_alpha[t-1,i] + log_trans[i,j]) + log_B[t,j]`; and the returned
`total_log_likelihood` — the logarithm of `fbLik` — equals the sum over all
chains of `logsumexp(log_alpha[L-1])`. -/
theorem C1_forward_recursion_and_likelihood (K : ℕ) (startprob : ℕ → ℚ)
    (transmat : ℕ → ℕ → ℚ) (B : ℕ → ℕ → ℚ) (lengths : List ℕ) (hK : 0 < K)
    (hs : ∀ i, 0 ≤ startprob i) (ht : ∀ i j, 0 ≤ transmat i j) (hB : ∀ t j, 0 < B t j) :
    (∀ j, Real.log (fbAlpha K (fbStart startprob) (fbTrans transmat) B 0 j : ℝ) =
      Real.log (fbStart startprob j : ℝ) + Real.log (B 0 j : ℝ)) ∧
    (∀ t j, Real.log (fbAlpha K (fbStart startprob) (fbTrans transmat) B (t + 1) j : ℝ) =
      Real.log (∑ i in Finset.range K,
        Real.exp (Real.log (fbAlpha K (fbStart startprob) (fbTrans transmat) B t i : ℝ) +
          Real.log (fbTrans transmat i j : ℝ))) +
      Real.log (B (t + 1) j : ℝ)) ∧
    Real.log (fbLik K startprob transmat B lengths : ℝ) =
      ((fbAlphaLasts K startprob transmat B lengths).map
        (fun v => Real.log (∑ j in Finset.range K, Real.exp (Real.log (v j : ℝ))))).sum := by
  have hst := fbStart_pos hs
  have htr := fbTrans_pos ht
  have hα := fbAlpha_pos hK hst htr hB
  refine ⟨?_, ?_, fbLik_log_sum hK hs ht lengths B hB⟩
  · intro j
    have e : fbAlpha K (fbStart startprob) (fbTrans transmat) B 0 j =
        fbStart startprob j * B 0 j := rfl
    rw [e, Rat.cast_mul,
      Real.log_mul (ne_of_gt (by exact_mod_cast hst j)) (ne_of_gt (by exact_mod_cast hB 0 j))]
  · intro t j
    have hSpos : 0 < ∑ i in Finset.range K,
        fbAlpha K (fbStart startprob) (fbTrans transmat) B t i * fbTrans transmat i j :=
      Finset.sum_pos (fun i _ => mul_pos (hα t i) (htr i j))
        (Finset.nonempty_range_iff.mpr (Nat.pos_iff_ne_zero.mp hK))
    have e : fbAlpha K (fbStart startprob) (fbTrans transmat) B (t + 1) j =
        (∑ i in Finset.range K,
          fbAlpha K (fbStart startprob) (fbTrans transmat) B t i * fbTrans transmat i j) *
          B (t + 1) j := rfl
    rw [e, Rat.cast_mul,
      Real.log_mul (ne_of_gt (by exact_mod_cast hSpos))
        (ne_of_gt (by exact_mod_cast hB (t + 1) j))]
    congr 1
    have hsum : (∑ i in Finset.range K,
        Real.exp (Real.log (fbAlpha K (fbStart startprob) (fbTrans transmat) B t i : ℝ) +
          Real.log (fbTrans transmat i j : ℝ))) =
        ((∑ i in Finset.range K,
          fbAlpha K (fbStart startprob) (fbTrans transmat) B t i * fbTrans transmat i j : ℚ) : ℝ) := by
      rw [Rat.cast_sum]
      refine Finset.sum_congr rfl fun i _ => ?_
      rw [Real.exp_add, Real.exp_log (by exact_mod_cast hα t i),
        Real.exp_log (by exact_mod_cast htr i j), Rat.cast_mul]
    rw [hsum]

/-- Witness for C1 at a concrete input (K = 1, constant unit parameters, one
chain of length 1), with the recursion equations instantiated at t = 0, j = 0. -/
theorem C1_witness :
    Real.log (fbAlpha 1 (fbStart oneV) (fbTrans oneM) oneM 0 0 : ℝ) =
      Real.log (fbStart oneV 0 : ℝ) + Real.log (oneM 0 0 : ℝ) ∧
    Real.log (fbAlpha 1 (fbStart oneV) (fbTrans oneM) oneM 1 0 : ℝ) =
      Real.log (∑ i in Finset.range 1,
        Real.exp (Real.log (fbAlpha 1 (fbStart oneV) (fbTrans oneM) oneM 0 i : ℝ) +
          Real.log (fbTrans oneM i 0 : ℝ))) +
      Real.log (oneM 1 0 : ℝ) ∧
    Real.log (fbLik 1 oneV oneM oneM [1] : ℝ) =
      ((fbAlphaLasts 1 oneV oneM oneM [1]).map
        (fun v => Real.log (∑ j in Finset.range 1, Real.exp (Real.log (v j : ℝ))))).sum := by
  have T := C1_forward_recursion_and_likelihood 1 oneV oneM oneM [1] one_pos
    (fun _ => by norm_num [oneV]) (fun _ _ => by norm_num [oneM]) (fun _ _ => by norm_num [oneM])
  exact ⟨T.1 0, T.2.1 0 0, T.2.2⟩

/-- C2: for every valid input — a positive (exponentiated) emission matrix and
any chain segmentation — the gamma matrix of `_forward_backward` has one row
per sample (the lengths sum to its row count) and every row sums exactly to 1,
in particular within the floating-point tolerance `1e-6`. -/
theorem C2_gamma_rows_sum_to_one (K : ℕ) (startprob : ℕ → ℚ) (transmat : ℕ → ℕ → ℚ)
    (B : ℕ → ℕ → ℚ) (lengths : List ℕ) (hK : 0 < K) (hs : ∀ i, 0 ≤ startprob i)
    (ht : ∀ i j, 0 ≤ transmat i j) (hB : ∀ t j, 0 < B t j) :
    (fbGamma K startprob transmat B lengths).length = lengths.sum ∧
    ∀ r ∈ fbGamma K startprob transmat B lengths,
      r.sum = 1 ∧ |r.sum - 1| < 1 / 10 ^ 6 := by
  refine ⟨fbGamma_length K startprob transmat lengths B, fun r hr => ?_⟩
  have h1 := fbGamma_row_sum hK hs ht lengths B hB r hr
  refine ⟨h1, ?_⟩
  rw [h1]
  norm_num

/-- Witness for C2 at a concrete input: two chains of lengths 2 and 1 over two
regimes, constant emissions. -/
theorem C2_witness :
    (fbGamma 2 (fun _ => 1) (fun _ _ => 1) (fun _ _ => 1) [2, 1]).length = [2, 1].sum ∧
    ∀ r ∈ fbGamma 2 (fun _ => 1) (fun _ _ => 1) (fun _ _ => 1) [2, 1],
      r.sum = 1 ∧ |r.sum - 1| < 1 / 10 ^ 6 :=
  C2_gamma_rows_sum_to_one 2 (fun _ => 1) (fun _ _ => 1) (fun _ _ => 1) [2, 1] (by norm_num)
    (fun _ => by norm_num) (fun _ _ => by norm_num) (fun _ _ => by norm_num)

/-- C9: with K = 1 regime and a single chain of length 1, the posterior gamma
computed by `predict_proba` on the initialized-but-unfit model is exactly
`[1.0]`, and the returned row is exactly the single expert's own
`predict_proba` row `[p0, p1]` (the expert's two class probabilities sum to 1). -/
theorem C9_single_regime_blend_identity (startprob : ℕ → ℚ) (transmat : ℕ → ℕ → ℚ)
    (conf p0 p1 : ℕ → ℕ → ℚ) (hs : ∀ i, 0 ≤ startprob i) (hc : ∀ n k, 0 ≤ conf n k)
    (hsum : p0 0 0 + p1 0 0 = 1) :
    fbGamma 1 startprob transmat (normEmissions 1 conf) [1] = [[1]] ∧
    predictProba 1 startprob transmat conf (fun _ n => p1 0 n) [1] = [[p0 0 0, p1 0 0]] := by
  have hB : ∀ t j, 0 < normEmissions 1 conf t j := normEmissions_pos hc
  have ha : 0 < fbAlpha 1 (fbStart startprob) (fbTrans transmat) (normEmissions 1 conf) 0 0 := by
    show 0 < fbStart startprob 0 * normEmissions 1 conf 0 0
    exact mul_pos (fbStart_pos hs 0) (hB 0 0)
  have hbeta : fbBeta 1 1 (fbTrans transmat) (normEmissions 1 conf) 0 0 = 1 := rfl
  have hg : gammaVal 1 1 (fbStart startprob) (fbTrans transmat) (normEmissions 1 conf) 0 0 = 1 := by
    unfold gammaVal gammaDen
    rw [Finset.sum_range_one, hbeta, mul_one]
    exact div_self (ne_of_gt ha)
  have hgamma : fbGamma 1 startprob transmat (normEmissions 1 conf) [1] = [[1]] := by
    simp [fbGamma, chainGammaRows, List.range_succ, hg]
  refine ⟨hgamma, ?_⟩
  unfold predictProba
  rw [hgamma]
  have h0 : (1 : ℚ) - p1 0 0 = p0 0 0 := by linarith
  simp [finalRisk, Finset.sum_range_one, List.range_succ, h0]

/-- Witness for C9 at a concrete input: constant confidences and an expert
predicting `[0.3, 0.7]`; `predict_proba` returns exactly that row. -/
theorem C9_witness :
    fbGamma 1 (fun _ => 1) (fun _ _ => 1) (normEmissions 1 (fun _ _ => 1)) [1] = [[1]] ∧
    predictProba 1 (fun _ => 1) (fun _ _ => 1) (fun _ _ => 1)
      (fun _ n => (fun _ _ => (7 : ℚ) / 10) 0 n) [1] = [[3 / 10, 7 / 10]] :=
  C9_single_regime_blend_identity (fun _ => 1) (fun _ _ => 1) (fun _ _ => 1)
    (fun _ _ => 3 / 10) (fun _ _ => 7 / 10) (fun _ => by norm_num) (fun _ _ => by norm_num)
    (by norm_num)

/-- Witness for C7: the unknown mode `"linear"` is rejected with the exact
error message, while the two known modes succeed. -/
theorem C7_witness :
    getExpertConfidence "linear" 1 1 treesW riskW id = Except.error "Unknown mode: linear" ∧
    getExpertConfidence "confidence" 1 1 treesW riskW id =
      Except.ok (rowNormalize (confScores 1 1 treesW)) ∧
    getExpertConfidence "risk" 1 1 treesW riskW id =
      Except.ok (rowNormalize (riskScores 1 1 riskW id)) := by
  have T := C7_unknown_mode_fails 1 1 treesW riskW id
  exact ⟨T.1 "linear" (by decide) (by decide), T.2.1, T.2.2⟩

end MSRF
